import Mathlib

/-!
# Verification of the x4build development-build orchestrator

A shallow embedding of `x4build.mjs`: the watch dispatcher, the build
orchestrator, the HMR broadcast server and the static asset server.
Node's `path.posix` primitives (`normalize`, `join`, `extname`,
`basename`) are embedded faithfully over character lists, since the
security-relevant request sanitization (line 413 of the source) is built
from them.
-/

set_option autoImplicit false

namespace X4Build

/-! ## Embedding of the JavaScript string primitives used by the source -/

/-- JS `String.prototype.startsWith`: code-unit prefix test. -/
def jsStartsWith (s p : String) : Bool := p.data.isPrefixOf s.data

/-- JS `String.prototype.substring(n)`: drop the first `n` code units. -/
def jsSubstr (s : String) (n : Nat) : String := ⟨s.data.drop n⟩

/-! ## Embedding of Node `path.posix`

`path.normalize` splits on `/`, drops empty and `.` segments, resolves
`..` against a segment stack (`allowAboveRoot` is false exactly for
absolute paths), then re-renders the path, preserving a leading `/` and a
trailing separator.  The stack below is kept head-first (the head is the
most recently pushed segment); `renderPath` reverses it. -/

/-- Split a character list on `/`; mirrors the segment scan of Node's
`normalizeString`.  Always returns at least one (possibly empty) segment. -/
def splitSl : List Char → List (List Char)
  | [] => [[]]
  | c :: rest =>
    if c = '/' then [] :: splitSl rest
    else
      match splitSl rest with
      | s :: ss => (c :: s) :: ss
      | [] => [[c]]

/-- Concatenate segments with `/` separators. -/
def joinSegs : List (List Char) → List Char
  | [] => []
  | [s] => s
  | s :: rest => s ++ '/' :: joinSegs rest

/-- The `..` case of Node's `normalizeString` loop: pop the innermost
segment, except that above-root `..` segments accumulate when
`allowAbove` (relative paths) and disappear otherwise (absolute paths). -/
def popStep (allowAbove : Bool) : List (List Char) → List (List Char)
  | [] => if allowAbove then [['.', '.']] else []
  | top :: rest =>
    if top = ['.', '.'] then
      (if allowAbove then ['.', '.'] :: top :: rest else top :: rest)
    else rest

/-- One step of Node's `normalizeString` segment loop: skip empty and `.`
segments, resolve `..` through `popStep`, push anything else. -/
def normStepL (allowAbove : Bool) (stack : List (List Char)) (seg : List Char) :
    List (List Char) :=
  if seg = [] ∨ seg = ['.'] then stack
  else if seg = ['.', '.'] then popStep allowAbove stack
  else seg :: stack

/-- Does the path start with `/`? -/
def isAbsL : List Char → Bool
  | [] => false
  | c :: _ => c = '/'

/-- Does the path end with `/`? -/
def trailingL (cs : List Char) : Bool := cs.getLast? == some '/'

/-- The normalized segment stack of a path (head = innermost segment). -/
def stackOfL (cs : List Char) : List (List Char) :=
  (splitSl cs).foldl (normStepL (!(isAbsL cs))) []

/-- Re-render a normalized segment stack, as in the tail of Node's
`posix.normalize`: an empty result becomes `/`, `./` or `.`; otherwise
the leading `/` and trailing separator are re-attached. -/
def renderPath (isAbs trailing : Bool) (stack : List (List Char)) : String :=
  let core := joinSegs stack.reverse
  if core = [] then (if isAbs then "/" else if trailing then "./" else ".")
  else ⟨(if isAbs then '/' :: core else core) ++ (if trailing then ['/'] else [])⟩

/-- Node `path.posix.normalize` on a character list. -/
def normalizeL (cs : List Char) : String :=
  if cs = [] then "." else renderPath (isAbsL cs) (trailingL cs) (stackOfL cs)

/-- Node `path.posix.normalize`. -/
def normalize (s : String) : String := normalizeL s.data

/-- Node `path.posix.join` restricted to two arguments, as used by the
source: empty parts are dropped, the rest are joined with `/` and
normalized; joining nothing yields `.`. -/
def pjoin (a b : String) : String :=
  if a = "" ∧ b = "" then "."
  else if a = "" then normalize b
  else if b = "" then normalize a
  else normalizeL (a.data ++ '/' :: b.data)

/-- The replace of line 413: strip every leading `../` or `..\`
occurrence (the JS regex `(\.\.[\/\\])+` anchored at the start). -/
def stripTravAux : List Char → List Char
  | c1 :: c2 :: c3 :: rest =>
    if c1 = '.' ∧ c2 = '.' ∧ (c3 = '/' ∨ c3 = '\\') then stripTravAux rest
    else c1 :: c2 :: c3 :: rest
  | cs => cs

/-- `String.replace(/^(\.\.[\/\\])+/, '')` from the request handler. -/
def stripTraversal (s : String) : String := ⟨stripTravAux s.data⟩

/-- Node `path.posix.extname` (also the `.ext` field of `path.parse`):
the suffix of the basename from its last dot, except that a leading dot,
a basename of `..`, or no dot at all give the empty extension; trailing
slashes are ignored. -/
def extnameL (cs : List Char) : List Char :=
  let b := (cs.reverse.dropWhile (fun c => c = '/')).takeWhile (fun c => c ≠ '/')
  if b.reverse = ['.', '.'] then []
  else
    let pre := b.takeWhile (fun c => c ≠ '.')
    if pre.length = b.length then []
    else if pre.length + 1 = b.length then []
    else (pre ++ ['.']).reverse

/-- Node `path.posix.extname`. -/
def extname (s : String) : String := ⟨extnameL s.data⟩

/-- Node `path.posix.basename`: the component after the last `/`,
ignoring trailing slashes. -/
def basename (s : String) : String :=
  ⟨((s.data.reverse.dropWhile (fun c => c = '/')).takeWhile (fun c => c ≠ '/')).reverse⟩

/-- A plain path segment: not empty, not `.`, not `..`.  Plain segments
are exactly the ones `normStepL` pushes verbatim; a path made only of
plain segments cannot traverse upward. -/
def PlainSeg (s : List Char) : Prop := s ≠ [] ∧ s ≠ ['.'] ∧ s ≠ ['.', '.']

instance (s : List Char) : Decidable (PlainSeg s) := by
  unfold PlainSeg
  exact inferInstance

/-! ## Static asset server (`serve()`, lines 372-447)

The filesystem is modelled as a finite association of paths to nodes; a
node is a readable file with contents, an existing-but-unreadable file
(whose read yields an error message), or a directory. -/

/-- A filesystem entry as observed through `fs.existsSync` /
`fs.statSync().isDirectory()` / `fs.readFile`. -/
inductive FsNode where
  | file (data : String)
  | unreadable (err : String)
  | dir
deriving DecidableEq, Repr

/-- The finite filesystem visible to the server. -/
def Fs := List (String × FsNode)

/-- Look a path up in the modelled filesystem. -/
def fsLookup (fs : Fs) (p : String) : Option FsNode :=
  (List.find? (fun e => e.1 = p) fs).map (fun e => e.2)

/-- `fs.existsSync`. -/
def existsSync (fs : Fs) (p : String) : Bool := (fsLookup fs p).isSome

/-- `fs.statSync(p).isDirectory()`. -/
def statIsDir (fs : Fs) (p : String) : Bool := fsLookup fs p == some FsNode.dir

/-- `fs.readFile`: succeeds with the contents of a readable file,
otherwise reports the error the callback would receive. -/
def readFileFs (fs : Fs) (p : String) : Except String String :=
  match fsLookup fs p with
  | some (FsNode.file d) => Except.ok d
  | some (FsNode.unreadable e) => Except.error e
  | some FsNode.dir => Except.error "EISDIR: illegal operation on a directory, read"
  | none => Except.error ("ENOENT: no such file or directory, open " ++ p)

/-- An HTTP response of the static server: status code, the
`Content-type` header when one is set, and the body. -/
structure Response where
  status : Nat
  contentType : Option String
  body : String
deriving DecidableEq, Repr

/-- The extension → MIME table of lines 376-392. -/
def mimeTable : List (String × String) :=
  [(".ico", "image/x-icon"), (".html", "text/html"), (".js", "text/javascript"),
   (".json", "application/json"), (".css", "text/css"), (".png", "image/png"),
   (".jpg", "image/jpeg"), (".wav", "audio/wav"), (".mp3", "audio/mpeg"),
   (".svg", "image/svg+xml"), (".pdf", "application/pdf"), (".zip", "application/zip"),
   (".doc", "application/msword"), (".eot", "application/vnd.ms-fontobject"),
   (".ttf", "application/x-font-ttf")]

/-- `mimeType[ext]` as an option. -/
def mimeLookup (ext : String) : Option String :=
  (List.find? (fun e => e.1 = ext) mimeTable).map (fun e => e.2)

/-- Line 413: `path.normalize(parsedUrl.pathname).replace(/^(\.\.[\/\\])+/, '')`. -/
def sanitizePathOf (pathname : String) : String := stripTraversal (normalize pathname)

/-- Line 414: `path.join(settings.outdir, sanitizePath)`. -/
def resolveRequest (outdir pathname : String) : String :=
  pjoin outdir (sanitizePathOf pathname)

/-- Lines 416-419: the path actually read — the resolved path, with
`index.html` appended when it names a directory. -/
def servedPath (outdir : String) (fs : Fs) (pathname : String) : String :=
  let p := resolveRequest outdir pathname
  if statIsDir fs p then pjoin p "index.html" else p

/-- The request handler of lines 403-443 for a request whose URL path
component is `pathname`. -/
def handleRequest (outdir : String) (fs : Fs) (pathname : String) : Response :=
  let p := resolveRequest outdir pathname
  if existsSync fs p then
    let p2 := servedPath outdir fs pathname
    match readFileFs fs p2 with
    | Except.error e =>
      { status := 500, contentType := none, body := "Error getting the file: " ++ e ++ "." }
    | Except.ok data =>
      { status := 200,
        contentType := some ((mimeLookup (extname p2)).getD "text/plain"),
        body := data }
  else
    { status := 404, contentType := none, body := "File " ++ p ++ " not found!" }

/-! ## Watch dispatcher (`watch()`, lines 285-363) -/

/-- A copy rule from `settings.copy` (`from_` and `to_` embed the
`from` and `to` fields, which are Lean keywords). -/
structure CopyRule where
  from_ : String
  to_ : String
deriving DecidableEq, Repr

/-- The configuration the watcher closes over: the working directory
`cPath` (line 287), the running script's own path `selfPath` (line 286)
and the copy rules of the settings. -/
structure WatchCfg where
  cPath : String
  selfPath : String
  copy : List CopyRule
deriving DecidableEq, Repr

/-- The side effects the `watcher.on('all')` handler performs for one
event, in program order. -/
inductive Action where
  | build
  | broadcast (msg : String)
  | exitProcess
deriving DecidableEq, Repr

/-- Lines 311-321: is the event path under one of the copy-rule sources?
The path is first relativized against `cPath` (string concatenation with
`"."` followed by `path.normalize`, exactly as in the source). -/
def copyMatch (cfg : WatchCfg) (targetPath : String) : Bool :=
  jsStartsWith targetPath cfg.cPath &&
    (let pth := normalize ("." ++ jsSubstr targetPath cfg.cPath.length)
     cfg.copy.any (fun desc =>
       let fromN := normalize desc.from_
       pth = fromN || jsStartsWith pth fromN))

/-- The `watcher.on('all')` handler (lines 307-362) as the list of
actions it performs, in order: the copy-rule branch builds and returns;
a change of the running script exits; otherwise `change` events are
classified by extension. -/
def onWatchEvent (cfg : WatchCfg) (event targetPath : String) : List Action :=
  if (event = "change" ∨ event = "add") ∧ copyMatch cfg targetPath = true then
    [Action.build]
  else if event = "change" then
    if targetPath = cfg.selfPath then [Action.exitProcess]
    else if extname targetPath = ".svg" ∨ extname targetPath = ".css" ∨
        extname targetPath = ".scss" then
      [Action.build, Action.broadcast "reload-css"]
    else if extname targetPath = ".html" ∨ extname targetPath = ".ts" ∨
        extname targetPath = ".js" ∨ extname targetPath = ".jsx" ∨
        extname targetPath = ".tsx" then
      [Action.build, Action.broadcast "reload-js"]
    else if extname targetPath = ".json" then
      (if basename targetPath = "package.json" then [Action.build] else [])
    else []
  else []

/-- The watcher's ignore predicate (lines 292-304): relativize against
the working directory, then ignore anything starting with the literal
strings `bin` or `node_modules`.  Note that the configured
`settings.outdir` is not consulted. -/
def ignorePred (cPath targetPath : String) : Bool :=
  let t := if jsStartsWith targetPath cPath
           then normalize (pjoin "." (jsSubstr targetPath cPath.length))
           else targetPath
  jsStartsWith t "bin" || jsStartsWith t "node_modules"

/-! ## Build orchestrator (`build()`, lines 193-244)

`build()` logs `building (buildcnt++)`, then awaits the bundler inside a
`try`/`catch` that logs failures and returns normally.  The counter is
incremented before the `try`, so it advances once per call irrespective
of the outcome. -/

/-- One call of `build()`: the new counter and the console lines it
produces, given whether the bundler invocation succeeds. -/
def buildLog (cnt : Nat) (bundlerOk : Bool) : Nat × List String :=
  (cnt + 1,
   if bundlerOk then ["building (" ++ toString cnt ++ ")..."]
   else ["building (" ++ toString cnt ++ ")...", "build failure, waiting for correction"])

/-- Fold a sequence of build outcomes through `buildLog`, returning the
final counter. -/
def runBuilds (cnt : Nat) (outcomes : List Bool) : Nat :=
  outcomes.foldl (fun c ok => (buildLog c ok).1) cnt

/-- The orchestrator's observable state for the serialization question:
the build counter and the number of bundler invocations currently in
flight. -/
structure OrchState where
  buildcnt : Nat
  inFlightBuilds : Nat
deriving DecidableEq, Repr

/-- The event-loop steps the source admits.  `build()` contains no
in-flight guard (the source has no `inFlight` flag at all), so a new
trigger may start in every state: `start` is the synchronous prefix of
`build()` (log, `buildcnt++`, begin `esbuild.build`), `finish` is the
completion of one pending bundler invocation. -/
inductive OrchStep : OrchState → OrchState → Prop
  | start (s : OrchState) :
      OrchStep s { buildcnt := s.buildcnt + 1, inFlightBuilds := s.inFlightBuilds + 1 }
  | finish (s : OrchState) (h : s.inFlightBuilds ≠ 0) :
      OrchStep s { buildcnt := s.buildcnt, inFlightBuilds := s.inFlightBuilds - 1 }

/-! ## HMR broadcast server (`watch()`, lines 261-283)

The connection handler (line 268) only pushes onto `clients`; the source
registers no `close` or `error` listener on the accepted socket, so
nothing ever removes an entry.  `sendClientMessage` iterates the whole
list.  The `closed` component below is the environment's knowledge of
which transports have gone away; the code never reads it. -/

/-- External events at the HMR server. -/
inductive HmrEvent where
  | connect (id : Nat)
  | disconnect (id : Nat)
  | fileChanged (msg : String)
deriving DecidableEq, Repr

/-- The registry (`clients`) plus the set of transports the environment
has closed. -/
structure HmrState where
  registry : List Nat
  closed : List Nat
deriving DecidableEq, Repr

/-- One event at the HMR server: connections are pushed (line 269),
disconnections change nothing in the registry (no handler exists in the
source), and a file change broadcasts to every registered handle
(lines 279-283), returning the attempted sends. -/
def hmrStep (s : HmrState) : HmrEvent → HmrState × List (Nat × String)
  | HmrEvent.connect id => ({ s with registry := s.registry ++ [id] }, [])
  | HmrEvent.disconnect id => ({ s with closed := id :: s.closed }, [])
  | HmrEvent.fileChanged msg => (s, s.registry.map (fun c => (c, msg)))

/-- Run a sequence of events, collecting every attempted send. -/
def hmrRun : HmrState → List HmrEvent → HmrState × List (Nat × String)
  | s, [] => (s, [])
  | s, e :: rest =>
    let r1 := hmrStep s e
    let r2 := hmrRun r1.1 rest
    (r2.1, r1.2 ++ r2.2)

/-- `clients.forEach(ws => ws.send(msg))` (lines 279-283) with fallible
sends: the loop body has no exception handling, so the first failing
send aborts the iteration and the exception propagates (`Except.error`
names the client whose send failed). -/
def sendAllGo (failing : List Nat) (msg : String) :
    List Nat → List (Nat × String) → Except Nat (List (Nat × String))
  | [], acc => Except.ok acc.reverse
  | c :: rest, acc =>
    if c ∈ failing then Except.error c else sendAllGo failing msg rest ((c, msg) :: acc)

/-- `sendClientMessage(msg)` over a registry, where sends to clients in
`failing` raise. -/
def sendClientMessageM (failing : List Nat) (clients : List Nat) (msg : String) :
    Except Nat (List (Nat × String)) :=
  sendAllGo failing msg clients []

/-! ## Concrete instances used in witnesses and counterexamples -/

/-- A project at `/proj` with no copy rules; the running script lives
outside the project tree. -/
def cfgW : WatchCfg :=
  { cPath := "/proj", selfPath := "/opt/x4/x4build.mjs", copy := [] }

/-- A project whose copy rules cover the running script itself. -/
def cfg6 : WatchCfg :=
  { cPath := "/proj", selfPath := "/proj/x4build.mjs",
    copy := [{ from_ := "x4build.mjs", to_ := "tools" }] }

/-- An output directory holding only `index.html` and `app.js`. -/
def fsDemo : Fs :=
  [("bin", FsNode.dir), ("bin/index.html", FsNode.file "<html>"),
   ("bin/app.js", FsNode.file "js")]

/-- An output directory holding a file with an unmapped extension. -/
def fs9 : Fs := [("bin", FsNode.dir), ("bin/data.unknownext", FsNode.file "DATA")]

end X4Build

namespace X4Build

/-! ## Helper lemmas about strings and characters -/

theorem string_data_append (a b : String) : (a ++ b).data = a.data ++ b.data := rfl

theorem string_mk_ne_empty (cs : List Char) (h : cs ≠ []) : (⟨cs⟩ : String) ≠ "" :=
  fun he => h (congrArg String.data he)

theorem isPrefixOf_append_self (a b : List Char) : a.isPrefixOf (a ++ b) = true := by
  induction a with
  | nil => cases b <;> rfl
  | cons c cs ih => simp [List.isPrefixOf, ih]

theorem getLast?_append_ne {α : Type} (a b : List α) (h : b ≠ []) :
    (a ++ b).getLast? = b.getLast? := by
  induction a with
  | nil => rfl
  | cons c cs ih =>
    cases hcb : cs ++ b with
    | nil => exact absurd (List.append_eq_nil.mp hcb).2 h
    | cons x xs =>
      rw [List.cons_append, hcb, List.getLast?_cons_cons, ← hcb, ih]

theorem eq_concat_of_getLast? {α : Type} :
    ∀ (l : List α) (c : α), l.getLast? = some c → ∃ xs, l = xs ++ [c] := by
  intro l
  induction l with
  | nil => intro c h; exact absurd h (by simp)
  | cons a as ih =>
    intro c h
    cases as with
    | nil =>
      refine ⟨[], ?_⟩
      simp only [List.getLast?_singleton, Option.some.injEq] at h
      rw [h]
      rfl
    | cons b bs =>
      rw [List.getLast?_cons_cons] at h
      obtain ⟨xs, hxs⟩ := ih c h
      exact ⟨a :: xs, by rw [List.cons_append, ← hxs]⟩

/-! ## Helper lemmas about `splitSl`, `joinSegs` and `normStepL` -/

theorem splitSl_ne_nil (cs : List Char) : splitSl cs ≠ [] := by
  cases cs with
  | nil => simp [splitSl]
  | cons c rest =>
    by_cases h : c = '/'
    · simp [splitSl, h]
    · simp only [splitSl, if_neg h]
      cases splitSl rest <;> simp

theorem splitSl_append (a b : List Char) :
    splitSl (a ++ '/' :: b) = splitSl a ++ splitSl b := by
  induction a with
  | nil => simp [splitSl]
  | cons c cs ih =>
    by_cases h : c = '/'
    · simp [splitSl, h, ih]
    · cases hcs : splitSl cs with
      | nil => exact absurd hcs (splitSl_ne_nil cs)
      | cons s ss =>
        rw [List.cons_append]
        simp only [splitSl, if_neg h, ih, hcs, List.cons_append]

theorem splitSl_no_slash (cs : List Char) : ∀ s ∈ splitSl cs, '/' ∉ s := by
  induction cs with
  | nil => simp [splitSl]
  | cons c rest ih =>
    by_cases h : c = '/'
    · simpa [splitSl, h] using ih
    · simp only [splitSl, if_neg h]
      cases hr : splitSl rest with
      | nil => exact absurd hr (splitSl_ne_nil rest)
      | cons s ss =>
        intro x hx
        rcases List.mem_cons.mp hx with hx | hx
        · subst hx
          intro hmem
          rcases List.mem_cons.mp hmem with hc | hc
          · exact h hc.symm
          · exact ih s (by rw [hr]; exact List.mem_cons_self s ss) hc
        · exact ih x (by rw [hr]; exact List.mem_cons_of_mem s hx)

theorem splitSl_of_no_slash (cs : List Char) (h : '/' ∉ cs) : splitSl cs = [cs] := by
  induction cs with
  | nil => rfl
  | cons c rest ih =>
    have hc : ¬c = '/' := fun he => h (he ▸ List.mem_cons_self c rest)
    have hr : '/' ∉ rest := fun hm => h (List.mem_cons_of_mem c hm)
    simp [splitSl, hc, ih hr]

theorem joinSegs_cons_cons (s t : List Char) (rest : List (List Char)) :
    joinSegs (s :: t :: rest) = s ++ '/' :: joinSegs (t :: rest) := rfl

theorem joinSegs_ne_nil (segs : List (List Char)) (hne : segs ≠ [])
    (hall : ∀ s ∈ segs, s ≠ []) : joinSegs segs ≠ [] := by
  cases segs with
  | nil => exact absurd rfl hne
  | cons s rest =>
    cases rest with
    | nil => exact hall s (List.mem_cons_self s [])
    | cons t r =>
      rw [joinSegs_cons_cons]
      cases hs : s with
      | nil => simp
      | cons c cs => simp

theorem head?_joinSegs (x : List Char) (rest : List (List Char)) (hx : x ≠ []) :
    (joinSegs (x :: rest)).head? = x.head? := by
  cases rest with
  | nil => rfl
  | cons t r =>
    rw [joinSegs_cons_cons]
    cases x with
    | nil => exact absurd rfl hx
    | cons c cs => rfl

theorem getLast?_joinSegs (segs : List (List Char)) (hne : segs ≠ [])
    (hall : ∀ s ∈ segs, s ≠ []) :
    ∃ s, s ∈ segs ∧ (joinSegs segs).getLast? = s.getLast? := by
  induction segs with
  | nil => exact absurd rfl hne
  | cons x rest ih =>
    cases rest with
    | nil => exact ⟨x, List.mem_cons_self x [], rfl⟩
    | cons t r =>
      obtain ⟨s, hs, hlast⟩ := ih (by simp) (fun u hu => hall u (List.mem_cons_of_mem x hu))
      refine ⟨s, List.mem_cons_of_mem x hs, ?_⟩
      have hj : joinSegs (t :: r) ≠ [] :=
        joinSegs_ne_nil (t :: r) (by simp) (fun u hu => hall u (List.mem_cons_of_mem x hu))
      rw [joinSegs_cons_cons, getLast?_append_ne _ _ (by simp),
        show ('/' :: joinSegs (t :: r)) = ['/'] ++ joinSegs (t :: r) from rfl,
        getLast?_append_ne _ _ hj, hlast]

theorem splitSl_joinSegs (segs : List (List Char)) :
    segs ≠ [] → (∀ s ∈ segs, '/' ∉ s) → splitSl (joinSegs segs) = segs := by
  induction segs with
  | nil => intro h; exact absurd rfl h
  | cons x rest ih =>
    intro _ hs
    cases rest with
    | nil => exact splitSl_of_no_slash x (hs x (List.mem_cons_self x []))
    | cons t r =>
      rw [joinSegs_cons_cons, splitSl_append,
        splitSl_of_no_slash x (hs x (List.mem_cons_self x (t :: r))),
        ih (by simp) (fun u hu => hs u (List.mem_cons_of_mem x hu))]
      rfl

theorem normStepL_nil_seg (a : Bool) (st : List (List Char)) :
    normStepL a st [] = st := by
  simp [normStepL]

theorem normStepL_dot_seg (a : Bool) (st : List (List Char)) :
    normStepL a st ['.'] = st := by
  simp [normStepL]

theorem normStepL_plain (a : Bool) (st : List (List Char)) (s : List Char)
    (h : PlainSeg s) : normStepL a st s = s :: st := by
  obtain ⟨h1, h2, h3⟩ := h
  rw [normStepL, if_neg (by tauto), if_neg h3]

theorem foldl_normStepL_plain (a : Bool) (segs : List (List Char))
    (h : ∀ s ∈ segs, PlainSeg s) :
    ∀ st, List.foldl (normStepL a) st segs = segs.reverse ++ st := by
  induction segs with
  | nil => intro st; rfl
  | cons x rest ih =>
    intro st
    rw [List.foldl_cons, normStepL_plain a st x (h x (List.mem_cons_self x rest)),
      ih (fun u hu => h u (List.mem_cons_of_mem x hu)) (x :: st)]
    simp

theorem normStepL_preserves_plain (a : Bool) (st : List (List Char)) (seg : List Char)
    (hst : ∀ s ∈ st, PlainSeg s) (ha : a = false) :
    ∀ s ∈ normStepL a st seg, PlainSeg s := by
  subst ha
  by_cases h1 : seg = [] ∨ seg = ['.']
  · rw [normStepL, if_pos h1]; exact hst
  · by_cases h2 : seg = ['.', '.']
    · rw [normStepL, if_neg h1, if_pos h2]
      cases st with
      | nil => simp [popStep]
      | cons top rest =>
        have htop : top ≠ ['.', '.'] :=
          (hst top (List.mem_cons_self top rest)).2.2
        rw [popStep, if_neg htop]
        exact fun s hs => hst s (List.mem_cons_of_mem top hs)
    · rw [normStepL, if_neg h1, if_neg h2]
      intro s hs
      rcases List.mem_cons.mp hs with hs | hs
      · subst hs; exact ⟨fun he => h1 (Or.inl he), fun he => h1 (Or.inr he), h2⟩
      · exact hst s hs

theorem foldl_normStepL_all_plain (segs : List (List Char)) :
    ∀ st, (∀ s ∈ st, PlainSeg s) →
      ∀ s ∈ List.foldl (normStepL false) st segs, PlainSeg s := by
  induction segs with
  | nil => intro st hst; exact hst
  | cons x rest ih =>
    intro st hst
    rw [List.foldl_cons]
    exact ih _ (normStepL_preserves_plain false st x hst rfl)

theorem normStepL_preserves_no_slash (a : Bool) (st : List (List Char)) (seg : List Char)
    (hst : ∀ s ∈ st, '/' ∉ s) (hseg : '/' ∉ seg) :
    ∀ s ∈ normStepL a st seg, '/' ∉ s := by
  by_cases h1 : seg = [] ∨ seg = ['.']
  · rw [normStepL, if_pos h1]; exact hst
  · by_cases h2 : seg = ['.', '.']
    · rw [normStepL, if_neg h1, if_pos h2]
      cases st with
      | nil =>
        cases a <;> simp [popStep]
      | cons top rest =>
        by_cases htop : top = ['.', '.']
        · rw [popStep, if_pos htop]
          cases a
          · simp only [Bool.false_eq_true, if_false]
            exact hst
          · simp only [if_pos rfl]
            intro s hs
            rcases List.mem_cons.mp hs with hs | hs
            · subst hs; exact h2 ▸ hseg
            · exact hst s hs
        · rw [popStep, if_neg htop]
          exact fun s hs => hst s (List.mem_cons_of_mem top hs)
    · rw [normStepL, if_neg h1, if_neg h2]
      intro s hs
      rcases List.mem_cons.mp hs with hs | hs
      · subst hs; exact hseg
      · exact hst s hs

theorem foldl_normStepL_no_slash (a : Bool) (segs : List (List Char))
    (hsegs : ∀ s ∈ segs, '/' ∉ s) :
    ∀ st, (∀ s ∈ st, '/' ∉ s) →
      ∀ s ∈ List.foldl (normStepL a) st segs, '/' ∉ s := by
  induction segs with
  | nil => intro st hst; exact hst
  | cons x rest ih =>
    intro st hst
    rw [List.foldl_cons]
    exact ih (fun u hu => hsegs u (List.mem_cons_of_mem x hu)) _
      (normStepL_preserves_no_slash a st x hst (hsegs x (List.mem_cons_self x rest)))

/-- The normalized stack of an absolute path consists of plain segments:
`allowAboveRoot` is false, so no `..` survives. -/
theorem stackOfL_abs_plain (cs : List Char) (h : isAbsL cs = true) :
    ∀ s ∈ stackOfL cs, PlainSeg s := by
  rw [stackOfL, h]
  exact foldl_normStepL_all_plain (splitSl cs) [] (by simp)

/-- Stack segments never contain a slash. -/
theorem stackOfL_no_slash (cs : List Char) : ∀ s ∈ stackOfL cs, '/' ∉ s := by
  rw [stackOfL]
  exact foldl_normStepL_no_slash _ (splitSl cs) (splitSl_no_slash cs) [] (by simp)

/-! ## Structure of rendered paths -/

theorem splitSl_slash_cons (xs : List Char) : splitSl ('/' :: xs) = [] :: splitSl xs := by
  simp [splitSl]

theorem stripTravAux_slash (xs : List Char) : stripTravAux ('/' :: xs) = '/' :: xs := by
  match xs with
  | [] => rfl
  | [a] => rfl
  | a :: b :: r =>
    rw [show stripTravAux ('/' :: a :: b :: r)
        = if ('/' : Char) = '.' ∧ a = '.' ∧ (b = '/' ∨ b = '\\') then stripTravAux r
          else '/' :: a :: b :: r from rfl,
      if_neg (fun h => absurd h.1 (by decide))]

theorem isAbsL_append (o rest : List Char) (h : o ≠ []) :
    isAbsL (o ++ rest) = isAbsL o := by
  cases o with
  | nil => exact absurd rfl h
  | cons c os => rfl

theorem data_ne_nil (s : String) (h : s ≠ "") : s.data ≠ [] := by
  intro hd
  exact h (by rw [show s = (⟨s.data⟩ : String) from rfl, hd])

/-- The rendering of an absolute path starts with `/`. -/
theorem renderPath_abs_data (t : Bool) (st : List (List Char)) :
    ∃ xs, (renderPath true t st).data = '/' :: xs := by
  by_cases hc : joinSegs st.reverse = []
  · refine ⟨[], ?_⟩
    simp only [renderPath]
    rw [if_pos hc]
    rfl
  · refine ⟨joinSegs st.reverse ++ (if t then ['/'] else []), ?_⟩
    simp only [renderPath]
    rw [if_neg hc]
    rfl

/-- Re-splitting the rendering of an absolute normalized stack and
folding it into any accumulator just pushes the stack back: the rendered
segments are plain, so no step of the fold pops. -/
theorem foldl_splitSl_renderAbs (t : Bool) (st : List (List Char))
    (hp : ∀ s ∈ st, PlainSeg s) (hsl : ∀ s ∈ st, '/' ∉ s)
    (a : Bool) (st0 : List (List Char)) :
    List.foldl (normStepL a) st0 (splitSl (renderPath true t st).data) = st ++ st0 := by
  cases st with
  | nil =>
    have hdata : (renderPath true t []).data = ['/'] := by simp [renderPath, joinSegs]
    rw [hdata, show splitSl ['/'] = [[], []] from by simp [splitSl],
      List.foldl_cons, normStepL_nil_seg, List.foldl_cons, normStepL_nil_seg,
      List.foldl_nil, List.nil_append]
  | cons x rest =>
    have hallne : ∀ s ∈ (x :: rest).reverse, s ≠ [] :=
      fun s hs => (hp s (List.mem_reverse.mp hs)).1
    have hslr : ∀ s ∈ (x :: rest).reverse, '/' ∉ s :=
      fun s hs => hsl s (List.mem_reverse.mp hs)
    have hcne : joinSegs (x :: rest).reverse ≠ [] :=
      joinSegs_ne_nil _ (by simp) hallne
    have hdata : (renderPath true t (x :: rest)).data
        = '/' :: (joinSegs (x :: rest).reverse ++ (if t then ['/'] else [])) := by
      simp only [renderPath]
      rw [if_neg hcne]
      rfl
    rw [hdata, splitSl_slash_cons, List.foldl_cons, normStepL_nil_seg]
    cases t with
    | false =>
      rw [if_neg (by simp), List.append_nil, splitSl_joinSegs _ (by simp) hslr,
        foldl_normStepL_plain a _ (fun s hs => hp s (List.mem_reverse.mp hs)) st0,
        List.reverse_reverse]
    | true =>
      rw [if_pos rfl,
        show joinSegs (x :: rest).reverse ++ ['/']
          = joinSegs (x :: rest).reverse ++ '/' :: [] from rfl,
        splitSl_append, splitSl_joinSegs _ (by simp) hslr, List.foldl_append,
        foldl_normStepL_plain a _ (fun s hs => hp s (List.mem_reverse.mp hs)) st0,
        List.reverse_reverse,
        show splitSl ([] : List Char) = [[]] from rfl,
        List.foldl_cons, normStepL_nil_seg, List.foldl_nil]

/-! ## C7: the build counter -/

/-- C7: after any sequence of K calls to the build trigger, successes
and failures in any mix, the counter equals its initial value plus K —
`buildcnt++` sits before the `try`, so every call increments exactly
once regardless of outcome. -/
theorem buildCounterMonotone (cnt : Nat) (outcomes : List Bool) :
    runBuilds cnt outcomes = cnt + outcomes.length := by
  induction outcomes generalizing cnt with
  | nil => rfl
  | cons ok rest ih =>
    rw [show runBuilds cnt (ok :: rest) = runBuilds (cnt + 1) rest from rfl, ih]
    simp [List.length_cons]
    omega

/-! ## C1: build serialization -/

/-- C1 counterexample: from the startup state (counter 1, nothing in
flight), two trigger arrivals with no completion in between are a legal
interleaving of the source's event loop — `build()` has no in-flight
guard — and reach a state with 2 concurrent bundler invocations,
refuting "the bundler collaborator is never invoked twice concurrently". -/
theorem buildOverlap_cex :
    Relation.ReflTransGen OrchStep { buildcnt := 1, inFlightBuilds := 0 }
      { buildcnt := 3, inFlightBuilds := 2 } ∧
    1 < ({ buildcnt := 3, inFlightBuilds := 2 } : OrchState).inFlightBuilds :=
  ⟨Relation.ReflTransGen.tail (Relation.ReflTransGen.single (OrchStep.start _))
     (OrchStep.start _),
   by decide⟩

/-- C1 (amended): trigger calls are not serialized — a trigger arriving
while a build is in flight immediately starts another concurrent bundler
invocation instead of queuing, and the number of concurrent invocations
can grow without bound: for every n, a state with n in-flight builds is
reachable. -/
theorem buildNotSerialized (n : Nat) :
    Relation.ReflTransGen OrchStep { buildcnt := 1, inFlightBuilds := 0 }
      { buildcnt := 1 + n, inFlightBuilds := n } := by
  induction n with
  | zero => exact Relation.ReflTransGen.refl
  | succ k ih => exact Relation.ReflTransGen.tail ih (OrchStep.start _)

/-! ## C3: connection registry cleanup -/

/-- C3: the source registers no `close`/`error` listener on an accepted
connection, so after connect 7 / disconnect 7, the registry still holds
the closed handle 7 and the next broadcast attempts a send against it —
the claim's required cleanup does not happen in the code. -/
theorem hmrStaleHandle_bug :
    (hmrRun { registry := [], closed := [] }
        [HmrEvent.connect 7, HmrEvent.disconnect 7, HmrEvent.fileChanged "reload-js"]).2
      = [(7, "reload-js")] ∧
    (hmrRun { registry := [], closed := [] }
        [HmrEvent.connect 7, HmrEvent.disconnect 7, HmrEvent.fileChanged "reload-js"]).1
      = { registry := [7], closed := [7] } := by
  exact ⟨rfl, rfl⟩

/-! ## C8: broadcast error isolation -/

/-- C8: `sendClientMessage` is a bare `forEach` of `ws.send` with no
per-connection error handling: when the send to client 6 raises, the
exception propagates (left conjunct) and client 9 never receives the
message, whereas with no failure both clients receive it (right
conjunct). -/
theorem broadcastNotIsolated_bug :
    sendClientMessageM [6] [6, 9] "reload-js" = Except.error 6 ∧
    sendClientMessageM [] [6, 9] "reload-js"
      = Except.ok [(6, "reload-js"), (9, "reload-js")] :=
  ⟨rfl, rfl⟩

/-! ## C4, C6, C10: the watch dispatcher -/

/-- C4: for a `change` event that is not a copy-rule hit and not the
running script, a style extension (`.css`/`.scss`/`.svg`) yields exactly
a build followed by one `reload-css` broadcast, and a code/markup
extension (`.html`/`.js`/`.jsx`/`.ts`/`.tsx`) yields exactly a build
followed by one `reload-js` broadcast; the program-order action list
places the broadcast strictly after the awaited build. -/
theorem watchClassification (cfg : WatchCfg) (tp : String)
    (hcopy : copyMatch cfg tp = false)
    (hself : tp ≠ cfg.selfPath) :
    ((extname tp = ".css" ∨ extname tp = ".scss" ∨ extname tp = ".svg") →
      onWatchEvent cfg "change" tp = [Action.build, Action.broadcast "reload-css"]) ∧
    ((extname tp = ".html" ∨ extname tp = ".js" ∨ extname tp = ".jsx" ∨
        extname tp = ".ts" ∨ extname tp = ".tsx") →
      onWatchEvent cfg "change" tp = [Action.build, Action.broadcast "reload-js"]) := by
  constructor
  · intro h
    unfold onWatchEvent
    rw [if_neg (by simp [hcopy]), if_pos rfl, if_neg hself]
    rcases h with h | h | h <;> simp [h]
  · intro h
    unfold onWatchEvent
    rw [if_neg (by simp [hcopy]), if_pos rfl, if_neg hself]
    rcases h with h | h | h | h | h <;> simp [h]

/-- C4 witness: in a project with no copy rules, changing
`styles/app.scss` triggers build + `reload-css` and changing
`src/app.tsx` triggers build + `reload-js`. -/
theorem watchClassification_witness :
    copyMatch cfgW "/proj/styles/app.scss" = false ∧
    ("/proj/styles/app.scss" : String) ≠ cfgW.selfPath ∧
    onWatchEvent cfgW "change" "/proj/styles/app.scss"
      = [Action.build, Action.broadcast "reload-css"] ∧
    onWatchEvent cfgW "change" "/proj/src/app.tsx"
      = [Action.build, Action.broadcast "reload-js"] :=
  ⟨by decide, by decide,
   (watchClassification cfgW "/proj/styles/app.scss" (by decide) (by decide)).1
     (Or.inr (Or.inl (by decide))),
   (watchClassification cfgW "/proj/src/app.tsx" (by decide) (by decide)).2
     (Or.inr (Or.inr (Or.inr (Or.inr (by decide)))))⟩

/-- C6 counterexample: when the running script lies under a copy-rule
source (`cfg6` copies `x4build.mjs`), a `change` of the script itself
hits the copy-rule branch first — it triggers a build and does NOT
terminate the process, refuting the claim as universally stated. -/
theorem selfChangeExit_cex :
    onWatchEvent cfg6 "change" "/proj/x4build.mjs" = [Action.build] ∧
    Action.exitProcess ∉ onWatchEvent cfg6 "change" "/proj/x4build.mjs" := by
  decide

/-- C6 (amended): for a `change` event at the dispatcher's own running
source path that is not covered by a copy-rule source prefix, the
process exits immediately with no build and no broadcast. -/
theorem selfChangeExit (cfg : WatchCfg) (h : copyMatch cfg cfg.selfPath = false) :
    onWatchEvent cfg "change" cfg.selfPath = [Action.exitProcess] := by
  unfold onWatchEvent
  rw [if_neg (by simp [h]), if_pos rfl, if_pos rfl]

/-- C6 witness: with no copy rules, changing the running script exits. -/
theorem selfChangeExit_witness :
    copyMatch cfgW cfgW.selfPath = false ∧
    onWatchEvent cfgW "change" cfgW.selfPath = [Action.exitProcess] :=
  ⟨by decide, selfChangeExit cfgW (by decide)⟩

/-- C10: an `add` event whose path is not under a copy-rule source
performs nothing — extension classification applies only to `change`
events, so newly added files alone trigger no build and no broadcast. -/
theorem addEventNoAction (cfg : WatchCfg) (tp : String)
    (h : copyMatch cfg tp = false) :
    onWatchEvent cfg "add" tp = [] := by
  unfold onWatchEvent
  rw [if_neg (by simp [h]), if_neg (by decide)]

/-- C10 witness: adding a new `.ts` source file performs no action. -/
theorem addEventNoAction_witness :
    copyMatch cfgW "/proj/src/new.ts" = false ∧
    onWatchEvent cfgW "add" "/proj/src/new.ts" = [] :=
  ⟨by decide, addEventNoAction cfgW "/proj/src/new.ts" (by decide)⟩

/-! ## C5: the watcher's ignore predicate vs the configured outdir -/

/-! ## C2: request-path traversal safety -/

theorem exists_cons_of_startsWith_slash (s : String) (h : jsStartsWith s "/" = true) :
    ∃ xs, s.data = '/' :: xs := by
  rw [jsStartsWith, show ("/" : String).data = ['/'] from rfl] at h
  cases hd : s.data with
  | nil =>
    rw [hd] at h
    exact absurd h (by decide)
  | cons c cs =>
    rw [hd] at h
    rw [show List.isPrefixOf ['/'] (c :: cs) = ('/' == c && List.isPrefixOf [] cs)
      from rfl] at h
    have hc : ('/' == c) = true := by
      cases cs with
      | nil => simpa using h
      | cons d ds => simpa using h
    exact ⟨cs, by rw [← eq_of_beq hc]⟩

theorem renderPath_abs_ne_empty (t : Bool) (st : List (List Char)) :
    renderPath true t st ≠ "" := by
  obtain ⟨xs, hxs⟩ := renderPath_abs_data t st
  intro he
  have hd : (renderPath true t st).data = [] := by rw [he]
  rw [hxs] at hd
  exact absurd hd (by simp)

/-- The sanitized form of an absolute request path is just its
normalization: the strip of leading `../` finds a leading `/` instead
and does nothing. -/
theorem sanitize_abs (pathname : String) (hpr : isAbsL pathname.data = true) :
    sanitizePathOf pathname
      = renderPath true (trailingL pathname.data) (stackOfL pathname.data) := by
  have hne : pathname.data ≠ [] := by
    intro h
    rw [h] at hpr
    exact absurd hpr (by decide)
  rw [sanitizePathOf, normalize, normalizeL, if_neg hne, hpr]
  obtain ⟨xs, hxs⟩ :=
    renderPath_abs_data (trailingL pathname.data) (stackOfL pathname.data)
  rw [stripTraversal, hxs, stripTravAux_slash, ← hxs]

/-- C2: for every request whose URL path component starts with `/` (the
origin-form request-target of HTTP) and any nonempty configured output
directory, the resolved file path of lines 413-414 renders as the output
directory's own normalized segment stack extended by plain segments
only — no `..` survives sanitization, so the resolved path never escapes
the output directory (the rendering lists `rest ++ stack` innermost
first, so the path reads: outdir segments, then plain descendants).  In
particular, requesting `/../../../etc/hosts` against an output directory
holding only `index.html` and `app.js` yields status 404 with no file
contents. -/
theorem serveResolvedUnderOutdir (outdir pathname : String)
    (h1 : outdir ≠ "") (h2 : jsStartsWith pathname "/" = true) :
    (∃ rest t, (∀ s ∈ rest, PlainSeg s) ∧
      resolveRequest outdir pathname
        = renderPath (isAbsL outdir.data) t (rest ++ stackOfL outdir.data)) ∧
    handleRequest "./bin" fsDemo "/../../../etc/hosts"
      = { status := 404, contentType := none,
          body := "File bin/etc/hosts not found!" } := by
  refine ⟨?_, by decide⟩
  obtain ⟨pr, hpr⟩ := exists_cons_of_startsWith_slash pathname h2
  have habs : isAbsL pathname.data = true := by rw [hpr]; rfl
  have hodne : outdir.data ≠ [] := data_ne_nil outdir h1
  have hsan := sanitize_abs pathname habs
  have hsanne : sanitizePathOf pathname ≠ "" := by
    rw [hsan]
    exact renderPath_abs_ne_empty _ _
  refine ⟨stackOfL pathname.data,
    trailingL (outdir.data ++ '/' :: (sanitizePathOf pathname).data),
    stackOfL_abs_plain pathname.data habs, ?_⟩
  rw [resolveRequest, pjoin, if_neg (fun hand => h1 hand.1), if_neg h1,
    if_neg hsanne, normalizeL, if_neg (by simp), isAbsL_append _ _ hodne,
    stackOfL, isAbsL_append _ _ hodne, splitSl_append, List.foldl_append,
    ← stackOfL, hsan,
    foldl_splitSl_renderAbs _ _ (stackOfL_abs_plain pathname.data habs)
      (stackOfL_no_slash pathname.data) _ (stackOfL outdir.data)]

/-- C2 witness: the concrete traversal request against the default
output directory satisfies the hypotheses, so the resolution theorem
applies to it. -/
theorem serveResolvedUnderOutdir_witness :
    ("./bin" : String) ≠ "" ∧
    jsStartsWith "/../../../etc/hosts" "/" = true ∧
    ((∃ rest t, (∀ s ∈ rest, PlainSeg s) ∧
      resolveRequest "./bin" "/../../../etc/hosts"
        = renderPath (isAbsL ("./bin" : String).data) t
            (rest ++ stackOfL ("./bin" : String).data)) ∧
     handleRequest "./bin" fsDemo "/../../../etc/hosts"
      = { status := 404, contentType := none,
          body := "File bin/etc/hosts not found!" }) :=
  ⟨by decide, by decide,
   serveResolvedUnderOutdir "./bin" "/../../../etc/hosts" (by decide) (by decide)⟩

/-! ## C9: server statuses and MIME defaulting -/

/-- C9: the response of the static server is 404 with a descriptive body
exactly when the resolved path does not exist; 500 with the read error
in the body when it exists but the read fails; and otherwise 200 with
the file bytes and a `Content-type` from the fixed MIME table,
defaulting to `text/plain` for unmapped extensions. -/
theorem serveStatuses (outdir : String) (fs : Fs) (pathname : String) :
    (existsSync fs (resolveRequest outdir pathname) = false →
      handleRequest outdir fs pathname
        = { status := 404, contentType := none,
            body := "File " ++ resolveRequest outdir pathname ++ " not found!" }) ∧
    (∀ e, existsSync fs (resolveRequest outdir pathname) = true →
      readFileFs fs (servedPath outdir fs pathname) = Except.error e →
      handleRequest outdir fs pathname
        = { status := 500, contentType := none,
            body := "Error getting the file: " ++ e ++ "." }) ∧
    (∀ d, existsSync fs (resolveRequest outdir pathname) = true →
      readFileFs fs (servedPath outdir fs pathname) = Except.ok d →
      handleRequest outdir fs pathname
        = { status := 200,
            contentType :=
              some ((mimeLookup (extname (servedPath outdir fs pathname))).getD
                "text/plain"),
            body := d }) := by
  refine ⟨?_, ?_, ?_⟩
  · intro h
    simp only [handleRequest]
    rw [if_neg (by simp [h])]
  · intro e hex hread
    simp only [handleRequest]
    rw [if_pos hex, hread]
  · intro d hex hread
    simp only [handleRequest]
    rw [if_pos hex, hread]

/-- C9 witness: an existing `/data.unknownext` is served 200 with the
default `text/plain` content type. -/
theorem serveStatuses_witness :
    existsSync fs9 (resolveRequest "./bin" "/data.unknownext") = true ∧
    handleRequest "./bin" fs9 "/data.unknownext"
      = { status := 200, contentType := some "text/plain", body := "DATA" } :=
  ⟨by decide,
   ((serveStatuses "./bin" fs9 "/data.unknownext").2.2 "DATA" (by decide)
      rfl).trans (by decide)⟩

theorem isAbsL_eq_false_of_head? (cs : List Char) (c : Char)
    (h : cs.head? = some c) (hc : c ≠ '/') : isAbsL cs = false := by
  cases cs with
  | nil => simp at h
  | cons a tail =>
    simp only [List.head?_cons, Option.some.injEq] at h
    subst h
    simp [isAbsL, hc]

/-- The relativization pipeline of the ignore predicate on a path of the
form `d/s` with `d` a plain slash-free directory name and `s` made of
plain segments: both normalizations reduce to the plain rendering
`d/s`. -/
theorem normalize_dot_join (d s : String)
    (hdne : d.data ≠ []) (hdsl : '/' ∉ d.data) (hdpl : PlainSeg d.data)
    (hplain : ∀ seg ∈ splitSl s.data, PlainSeg seg) :
    normalize (pjoin "." (⟨'/' :: (d.data ++ '/' :: s.data)⟩ : String))
      = ⟨joinSegs (d.data :: splitSl s.data)⟩ := by
  have hsne : s.data ≠ [] := by
    intro h0
    have hnil : ([] : List Char) ∈ splitSl s.data := by rw [h0]; simp [splitSl]
    exact (hplain [] hnil).1 rfl
  have hsplit_ds : splitSl (d.data ++ '/' :: s.data) = [d.data] ++ splitSl s.data := by
    rw [splitSl_append, splitSl_of_no_slash d.data hdsl]
  have habs0 : isAbsL ('.' :: '/' :: '/' :: (d.data ++ '/' :: s.data)) = false := by
    simp [isAbsL]
  have htr0 : trailingL ('.' :: '/' :: '/' :: (d.data ++ '/' :: s.data)) = false := by
    rw [show ('.' :: '/' :: '/' :: (d.data ++ '/' :: s.data))
        = ('.' :: '/' :: '/' :: d.data ++ ['/']) ++ s.data from by simp,
      trailingL, getLast?_append_ne _ _ hsne]
    cases hgl : s.data.getLast? with
    | none => rfl
    | some c =>
      by_cases hc : c = '/'
      · exfalso
        subst hc
        obtain ⟨xs, hxs⟩ := eq_concat_of_getLast? _ _ hgl
        have hnil : ([] : List Char) ∈ splitSl s.data := by
          rw [hxs, show xs ++ ['/'] = xs ++ '/' :: ([] : List Char) from rfl,
            splitSl_append]
          simp [splitSl]
        exact (hplain [] hnil).1 rfl
      · exact beq_eq_false_iff_ne.mpr (fun he => hc (Option.some.inj he))
  have hsplitAll : splitSl ('.' :: '/' :: '/' :: (d.data ++ '/' :: s.data))
      = ['.'] :: [] :: ([d.data] ++ splitSl s.data) := by
    rw [show ('.' :: '/' :: '/' :: (d.data ++ '/' :: s.data))
        = ['.'] ++ '/' :: ('/' :: (d.data ++ '/' :: s.data)) from rfl,
      splitSl_append, splitSl_slash_cons, hsplit_ds]
    rfl
  have hinner : normalizeL (("." : String).data ++ '/' ::
        (⟨'/' :: (d.data ++ '/' :: s.data)⟩ : String).data)
      = renderPath false false ((splitSl s.data).reverse ++ [d.data]) := by
    rw [show (("." : String).data ++ '/' ::
          (⟨'/' :: (d.data ++ '/' :: s.data)⟩ : String).data)
        = '.' :: '/' :: '/' :: (d.data ++ '/' :: s.data) from rfl,
      normalizeL, if_neg (by simp), stackOfL, habs0, htr0,
      show (!false) = true from rfl, hsplitAll,
      List.foldl_cons, normStepL_dot_seg, List.foldl_cons, normStepL_nil_seg,
      List.foldl_append, List.foldl_cons, normStepL_plain true [] d.data hdpl,
      List.foldl_nil, foldl_normStepL_plain true (splitSl s.data) hplain]
  have hallne : ∀ seg ∈ d.data :: splitSl s.data, seg ≠ [] := by
    intro seg hseg
    rcases List.mem_cons.mp hseg with h | h
    · subst h; exact hdne
    · exact (hplain seg h).1
  have hallsl : ∀ seg ∈ d.data :: splitSl s.data, '/' ∉ seg := by
    intro seg hseg
    rcases List.mem_cons.mp hseg with h | h
    · subst h; exact hdsl
    · exact splitSl_no_slash s.data seg h
  have hcne : joinSegs (d.data :: splitSl s.data) ≠ [] :=
    joinSegs_ne_nil _ (by simp) hallne
  have hSTrev : ((splitSl s.data).reverse ++ [d.data]).reverse
      = d.data :: splitSl s.data := by simp
  have hrender : renderPath false false ((splitSl s.data).reverse ++ [d.data])
      = ⟨joinSegs (d.data :: splitSl s.data)⟩ := by
    simp only [renderPath]
    rw [hSTrev, if_neg hcne]
    simp
  have hbne : (⟨'/' :: (d.data ++ '/' :: s.data)⟩ : String) ≠ "" :=
    string_mk_ne_empty _ (by simp)
  rw [pjoin, if_neg (fun hand => absurd hand.1 (by decide)), if_neg (by decide),
    if_neg hbne, hinner, hrender, normalize,
    show (⟨joinSegs (d.data :: splitSl s.data)⟩ : String).data
      = joinSegs (d.data :: splitSl s.data) from rfl,
    normalizeL, if_neg hcne]
  have habs2 : isAbsL (joinSegs (d.data :: splitSl s.data)) = false := by
    cases hdd : d.data with
    | nil => exact absurd hdd hdne
    | cons c cr =>
      have hhd : (joinSegs ((c :: cr) :: splitSl s.data)).head? = some c := by
        rw [head?_joinSegs _ _ (by simp)]
        rfl
      have hc : c ≠ '/' := fun he => hdsl (by rw [hdd, he]; exact List.mem_cons_self _ _)
      exact isAbsL_eq_false_of_head? _ c hhd hc
  have htr2 : trailingL (joinSegs (d.data :: splitSl s.data)) = false := by
    obtain ⟨seg, hmem, hlast⟩ := getLast?_joinSegs _ (by simp) hallne
    rw [trailingL, hlast]
    cases hgl : seg.getLast? with
    | none => rfl
    | some c =>
      have hcmem : c ∈ seg := by
        obtain ⟨xs, hxs⟩ := eq_concat_of_getLast? seg c hgl
        rw [hxs]
        simp
      have hc : c ≠ '/' := fun he => (hallsl seg hmem) (he ▸ hcmem)
      exact beq_eq_false_iff_ne.mpr (fun he => hc (Option.some.inj he))
  rw [stackOfL, habs2, htr2, show (!false) = true from rfl,
    splitSl_joinSegs _ (by simp) hallsl,
    List.foldl_cons, normStepL_plain true [] d.data hdpl,
    foldl_normStepL_plain true (splitSl s.data) hplain]
  exact hrender

/-- C5 (amended): every path of the form `cwd/bin/s` or
`cwd/node_modules/s`, with `s` made of plain segments, is ignored by the
watch predicate — the predicate hardcodes these two literal directory
names, which covers the default output directory `./bin` but not an
overridden one. -/
theorem ignoreLiteralDirs (cPath d s : String)
    (hd : d = "bin" ∨ d = "node_modules")
    (hplain : ∀ seg ∈ splitSl s.data, PlainSeg seg) :
    ignorePred cPath (cPath ++ "/" ++ d ++ "/" ++ s) = true := by
  have hdne : d.data ≠ [] := by rcases hd with h | h <;> subst h <;> decide
  have hdsl : '/' ∉ d.data := by rcases hd with h | h <;> subst h <;> decide
  have hdpl : PlainSeg d.data := by rcases hd with h | h <;> subst h <;> decide
  have hdata : (cPath ++ "/" ++ d ++ "/" ++ s).data
      = cPath.data ++ '/' :: (d.data ++ '/' :: s.data) := by
    simp [string_data_append, show ("/" : String).data = ['/'] from rfl]
  have hstart : jsStartsWith (cPath ++ "/" ++ d ++ "/" ++ s) cPath = true := by
    rw [jsStartsWith, hdata]
    exact isPrefixOf_append_self _ _
  have hsub : jsSubstr (cPath ++ "/" ++ d ++ "/" ++ s) cPath.length
      = ⟨'/' :: (d.data ++ '/' :: s.data)⟩ := by
    rw [jsSubstr, hdata, show cPath.length = cPath.data.length from rfl,
      List.drop_left]
  simp only [ignorePred]
  rw [if_pos hstart, hsub, normalize_dot_join d s hdne hdsl hdpl hplain]
  cases hys : splitSl s.data with
  | nil => exact absurd hys (splitSl_ne_nil _)
  | cons y ys =>
    rcases hd with h | h <;> subst h
    · rw [show jsStartsWith (⟨joinSegs (("bin" : String).data :: y :: ys)⟩ : String)
            "bin" = true from by
          rw [jsStartsWith, joinSegs_cons_cons]
          exact isPrefixOf_append_self _ _,
        Bool.true_or]
    · rw [show jsStartsWith
            (⟨joinSegs (("node_modules" : String).data :: y :: ys)⟩ : String)
            "node_modules" = true from by
          rw [jsStartsWith, joinSegs_cons_cons]
          exact isPrefixOf_append_self _ _,
        Bool.or_true]

/-- C5 witness: `cwd/bin/app.js` — a path under the default output
directory — is ignored. -/
theorem ignoreLiteralDirs_witness :
    (∀ seg ∈ splitSl ("app.js" : String).data, PlainSeg seg) ∧
    ignorePred "/proj" ("/proj" ++ "/" ++ "bin" ++ "/" ++ "app.js") = true :=
  ⟨by decide, ignoreLiteralDirs "/proj" "bin" "app.js" (Or.inl rfl) (by decide)⟩

/-- C5 counterexample: with the output directory overridden to `dist`
(`--outdir=dist`), the path `/proj/dist/app.js` relativizes to
`dist/app.js` — a path under the configured output directory — yet the
ignore predicate does not ignore it, because the predicate hardcodes the
literals `bin` and `node_modules` and never consults `settings.outdir`. -/
theorem outdirIgnore_cex :
    jsStartsWith (normalize (pjoin "." (jsSubstr "/proj/dist/app.js" 5))) "dist" = true ∧
    ignorePred "/proj" "/proj/dist/app.js" = false := by
  decide

end X4Build
